import Mathlib

/-!
Verification development for the client-side data layer of the `ecom`
repository: the two-tier cache (`src/js/utils/cache.js`), the read-through /
retry orchestrator and write queue (`src/js/services/supabase-service.js`),
and the observable state store (`StateService`).

JavaScript values are embedded as trees carrying an explicit *address* on
every heap-allocated node (dates, arrays, objects).  Reference equality
(JS `===` / `!==` on objects) is address equality; `deepClone` allocates
fresh addresses from a counter.  This lets us state precisely whether an
operation returns the internal value itself or a clone of it.
-/

namespace Ecom

mutual

/-- A JavaScript value.  `date`, `arr` and `obj` carry an address (their
heap identity) as the first component. -/
inductive JSVal where
  | null : JSVal
  | undefined : JSVal
  | bool : Bool → JSVal
  | num : Int → JSVal
  | str : String → JSVal
  | date : Nat → Nat → JSVal
  | arr : Nat → JSList → JSVal
  | obj : Nat → JSFields → JSVal
deriving DecidableEq, Repr

/-- Elements of a JS array. -/
inductive JSList where
  | nil : JSList
  | cons : JSVal → JSList → JSList
deriving DecidableEq, Repr

/-- Named fields of a JS object, in insertion order. -/
inductive JSFields where
  | nil : JSFields
  | cons : String → JSVal → JSFields → JSFields
deriving DecidableEq, Repr

end

/-- JS truthiness: `null`, `undefined`, `false`, `0` and `""` are falsy;
every date / array / object is truthy. -/
def truthy : JSVal → Bool
  | .null => false
  | .undefined => false
  | .bool b => b
  | .num n => n != 0
  | .str s => s != ""
  | .date _ _ => true
  | .arr _ _ => true
  | .obj _ _ => true

/-- JS strict equality `===`: value equality on primitives, reference
(address) equality on dates, arrays and objects. -/
def jsStrictEq : JSVal → JSVal → Bool
  | .null, .null => true
  | .undefined, .undefined => true
  | .bool a, .bool b => a == b
  | .num a, .num b => a == b
  | .str a, .str b => a == b
  | .date a _, .date b _ => a == b
  | .arr a _, .arr b _ => a == b
  | .obj a _, .obj b _ => a == b
  | _, _ => false

/-- Field lookup on an object's field list; `undefined` when absent. -/
def fieldsGet : JSFields → String → JSVal
  | .nil, _ => .undefined
  | .cons k v rest, key => if k = key then v else fieldsGet rest key

/-- Field update: overwrite in place when the key exists, append otherwise
(the JS property-assignment order semantics). -/
def fieldsSet : JSFields → String → JSVal → JSFields
  | .nil, key, v => .cons key v .nil
  | .cons k w rest, key, v =>
    if k = key then .cons k v rest else .cons k w (fieldsSet rest key v)

/-- The keys of an object's field list, in order (`Object.keys`). -/
def fieldsKeys : JSFields → List String
  | .nil => []
  | .cons k _ rest => k :: fieldsKeys rest

/-- Property access `v[key]` (only objects carry fields here). -/
def getField : JSVal → String → JSVal
  | .obj _ fs, key => fieldsGet fs key
  | _, _ => .undefined

/-- Property assignment `v[key] = w` on an object; other values unchanged. -/
def setField : JSVal → String → JSVal → JSVal
  | .obj a fs, key, w => .obj a (fieldsSet fs key w)
  | v, _, _ => v

/-- `Object.keys` of a value (empty for non-objects). -/
def topKeys : JSVal → List String
  | .obj _ fs => fieldsKeys fs
  | _ => []

mutual

/-- All heap addresses occurring in a value. -/
def addrs : JSVal → List Nat
  | .null => []
  | .undefined => []
  | .bool _ => []
  | .num _ => []
  | .str _ => []
  | .date a _ => [a]
  | .arr a xs => a :: addrsL xs
  | .obj a fs => a :: addrsF fs

def addrsL : JSList → List Nat
  | .nil => []
  | .cons x xs => addrs x ++ addrsL xs

def addrsF : JSFields → List Nat
  | .nil => []
  | .cons _ v fs => addrs v ++ addrsF fs

end

mutual

/-- The value with every address replaced by `0`: two values are
structurally (deep-) equal iff their `stripAddrs` agree. -/
def stripAddrs : JSVal → JSVal
  | .null => .null
  | .undefined => .undefined
  | .bool b => .bool b
  | .num n => .num n
  | .str s => .str s
  | .date _ t => .date 0 t
  | .arr _ xs => .arr 0 (stripAddrsL xs)
  | .obj _ fs => .obj 0 (stripAddrsF fs)

def stripAddrsL : JSList → JSList
  | .nil => .nil
  | .cons x xs => .cons (stripAddrs x) (stripAddrsL xs)

def stripAddrsF : JSFields → JSFields
  | .nil => .nil
  | .cons k v fs => .cons k (stripAddrs v) (stripAddrsF fs)

end

mutual

/-- `StateService.deepClone`: primitives returned as-is, dates copied,
arrays mapped, objects copied key by key.  Fresh heap addresses are drawn
from the counter, which is threaded through and returned. -/
def deepClone : JSVal → Nat → JSVal × Nat
  | .null, c => (.null, c)
  | .undefined, c => (.undefined, c)
  | .bool b, c => (.bool b, c)
  | .num n, c => (.num n, c)
  | .str s, c => (.str s, c)
  | .date _ t, c => (.date c t, c + 1)
  | .arr _ xs, c =>
    let p := deepCloneL xs c
    (.arr p.2 p.1, p.2 + 1)
  | .obj _ fs, c =>
    let p := deepCloneF fs c
    (.obj p.2 p.1, p.2 + 1)

def deepCloneL : JSList → Nat → JSList × Nat
  | .nil, c => (.nil, c)
  | .cons x xs, c =>
    let p := deepClone x c
    let q := deepCloneL xs p.2
    (.cons p.1 q.1, q.2)

def deepCloneF : JSFields → Nat → JSFields × Nat
  | .nil, c => (.nil, c)
  | .cons k v fs, c =>
    let p := deepClone v c
    let q := deepCloneF fs p.2
    (.cons k p.1 q.1, q.2)

end




/-! ## Cache (`src/js/utils/cache.js`, memory tier)

`CacheManager.memoryCache` is a JS `Map`, embedded as an insertion-ordered
association list: `Map.set` on a present key overwrites in place, otherwise
appends; `Map.keys().next().value` is the head; `Map.delete` removes one
binding.  `Date.now()` is an explicit `now : Nat` argument. -/

/-- One memory-cache binding: `{ value, timestamp, ttl }`. -/
structure MemEntry where
  value : JSVal
  timestamp : Nat
  ttl : Nat
deriving DecidableEq, Repr

/-- The memory tier: insertion-ordered key / entry bindings. -/
abbrev MemCache := List (String × MemEntry)

/-- JS `Map.get`. -/
def mapLookup (c : MemCache) (k : String) : Option MemEntry :=
  match c.find? (fun p => p.1 == k) with
  | some p => some p.2
  | none => none

/-- JS `Map.set`: overwrite in place when present, append otherwise. -/
def mapSet (c : MemCache) (k : String) (e : MemEntry) : MemCache :=
  if c.any (fun p => p.1 == k) then
    c.map (fun p => if p.1 == k then (k, e) else p)
  else c ++ [(k, e)]

/-- JS `Map.delete`. -/
def mapDelete (c : MemCache) (k : String) : MemCache :=
  c.filter (fun p => p.1 != k)

/-- Capacity of the fast tier: `this.maxMemorySize = 50` in the source; the
operations below take it as a parameter since it is an instance field. -/
def defaultMaxMemorySize : Nat := 50

/-- `CacheManager.setMemory(key, value, ttl = 300000)`: when the map is at
or above capacity, the earliest-inserted binding (the head) is deleted,
then the new binding is stored with `timestamp = Date.now()`. -/
def setMemory (maxSize : Nat) (now : Nat) (c : MemCache) (k : String)
    (v : JSVal) (ttl : Nat) : MemCache :=
  let c1 := if maxSize ≤ c.length then c.drop 1 else c
  mapSet c1 k ⟨v, now, ttl⟩

/-- `CacheManager.getMemory(key)`: absent keys give `null`; an entry with
`now − timestamp > ttl` is deleted and `null` returned; otherwise the
stored value is returned and the map is untouched.  The returned pair is
(result, map after the call); `none` models the `null` return. -/
def getMemory (now : Nat) (c : MemCache) (k : String) : Option JSVal × MemCache :=
  match mapLookup c k with
  | none => (none, c)
  | some item =>
    if now - item.timestamp > item.ttl then (none, mapDelete c k)
    else (some item.value, c)

/-- Folding `setMemory` over a list of key / value pairs (same `ttl`,
same clock reading), as in the FIFO-eviction scenario. -/
def insertAll (maxSize now ttl : Nat) (c : MemCache) (kvs : List (String × JSVal)) :
    MemCache :=
  kvs.foldl (fun acc kv => setMemory maxSize now acc kv.1 kv.2 ttl) c

/-- JS `String.prototype.startsWith`, evaluated on the character lists
(structural recursion, so concrete instances reduce in the kernel). -/
def strStartsWith (s pre : String) : Bool := pre.data.isPrefixOf s.data

/-- `SupabaseService.invalidateCache(pattern)` (memory tier, `useDB:false`):
for `products` it calls `cacheManager.get('products_all')` and then deletes
every key starting with `product_`; for `categories` / `settings` it only
calls `cacheManager.get` on the family's exact key.  Note the source calls
`get`, not a delete, on the exact keys. -/
def invalidateCache (pattern : String) (now : Nat) (c : MemCache) : MemCache :=
  if pattern = "products" then
    let c1 := (getMemory now c "products_all").2
    c1.filter (fun p => !(strStartsWith p.1 "product_"))
  else if pattern = "categories" then
    (getMemory now c "categories_all").2
  else if pattern = "settings" then
    (getMemory now c "store_settings").2
  else c

/-! ## Data orchestrator (`src/js/services/supabase-service.js`)

`execute(queryFn, cacheKey, options)` is embedded as a pure function.  The
remote operation is a map from the attempt number (1-based) to its outcome:
either it throws, or it returns a `{data, error}` result.  Thrown values
and truthy `result.error` fields are abstracted to their message string
(the source wraps `result.error.message` in `new Error(...)`; both are
truthy error descriptors).  `errorHandler.handleError` is a logger that
returns an info object and is not modelled.  The call's observable side
effects are recorded as an event trace: operation invocations, backoff
delays (`delay(this.retryDelay * attempt)`), and cache stores. -/

/-- Outcome of one invocation of `queryFn`. -/
inductive Outcome where
  | throwErr : String → Outcome
  | ret : JSVal → Option String → Outcome
deriving DecidableEq, Repr

/-- An attempt fails when `queryFn` throws or returns a truthy `error`. -/
def Outcome.isFail : Outcome → Bool
  | .throwErr _ => true
  | .ret _ (some _) => true
  | .ret _ none => false

/-- The message carried by a failing outcome. -/
def Outcome.failMsg : Outcome → String
  | .throwErr m => m
  | .ret _ (some m) => m
  | .ret _ none => ""

/-- The result object `execute` resolves with.  `fromCache = false` also
models the success path, where the source returns `result` unchanged and
`result.fromCache` is `undefined` (falsy). -/
structure ExecResult where
  data : JSVal
  error : Option String
  fromCache : Bool
deriving DecidableEq, Repr

/-- Observable side effects of one `execute` call. -/
inductive ExecEvent where
  | invoke : Nat → ExecEvent
  | delayed : Nat → ExecEvent
  | cacheSet : String → ExecEvent
deriving DecidableEq, Repr

/-- Everything an `execute` call produces: the resolved result, the memory
cache afterwards, the clock afterwards (delays advance it), and the trace. -/
structure ExecOut where
  result : ExecResult
  cache : MemCache
  time : Nat
  events : List ExecEvent
deriving DecidableEq, Repr

/-- The delay durations occurring in a trace, in order. -/
def delaysOf (evs : List ExecEvent) : List Nat :=
  evs.filterMap (fun e => match e with | .delayed m => some m | _ => none)

/-- Whether an event is a cache store. -/
def ExecEvent.isCacheSet : ExecEvent → Bool
  | .cacheSet _ => true
  | _ => false

/-- The retry loop of `execute` (`for attempt = 1; attempt <= retries`):
`fuel` is the number of attempts still allowed (`retries − attempt + 1`),
so `fuel = 0` is loop exit with `{ data: null, error: lastError }`.  On a
successful attempt the result is cached when `useCache && cacheKey &&
result.data` (truthy data) and returned as-is; on a failing attempt the
error is remembered and, when attempts remain, `delay(retryDelay *
attempt)` runs before the next attempt. -/
def execLoop (op : Nat → Outcome) (useCache : Bool) (cacheKey : Option String)
    (cacheTTL retryDelay maxSize : Nat) : Nat → Nat → Option String →
    MemCache → Nat → List ExecEvent → ExecOut
  | 0, _, lastError, cache, t, evs =>
    ⟨⟨.null, lastError, false⟩, cache, t, evs⟩
  | fuel + 1, attempt, _lastError, cache, t, evs =>
    let evs := evs ++ [.invoke attempt]
    match op attempt with
    | .ret d none =>
      if useCache && cacheKey.isSome && truthy d then
        let k := cacheKey.getD ""
        ⟨⟨d, none, false⟩, setMemory maxSize t cache k d cacheTTL, t,
          evs ++ [.cacheSet k]⟩
      else
        ⟨⟨d, none, false⟩, cache, t, evs⟩
    | o =>
      if fuel = 0 then
        ⟨⟨.null, some o.failMsg, false⟩, cache, t, evs⟩
      else
        execLoop op useCache cacheKey cacheTTL retryDelay maxSize
          fuel (attempt + 1) (some o.failMsg) cache (t + retryDelay * attempt)
          (evs ++ [.delayed (retryDelay * attempt)])

/-- `SupabaseService.execute` with `useDB:false` (the memory tier; every
claim under verification uses it): when `useCache && cacheKey`, first try
`cacheManager.get`; a truthy cached value resolves immediately as
`{ data: cached, error: null, fromCache: true }` with no invocation;
otherwise the retry loop runs starting at attempt 1. -/
def execute (op : Nat → Outcome) (cacheKey : Option String) (useCache : Bool)
    (cacheTTL retries retryDelay maxSize : Nat) (cache : MemCache) (now : Nat) :
    ExecOut :=
  match cacheKey, useCache with
  | some k, true =>
    let hit := getMemory now cache k
    match hit.1 with
    | some v =>
      if truthy v then ⟨⟨v, none, true⟩, hit.2, now, []⟩
      else execLoop op useCache cacheKey cacheTTL retryDelay maxSize
        retries 1 none hit.2 now []
    | none =>
      execLoop op useCache cacheKey cacheTTL retryDelay maxSize
        retries 1 none hit.2 now []
  | _, _ =>
    execLoop op useCache cacheKey cacheTTL retryDelay maxSize
      retries 1 none cache now []

/-! ## State store (`StateService`)

`this.state` is a JS object (a `JSVal.obj`); `this.history` a list of
entries.  Subscribers and middleware are caller-supplied observers whose
exceptions the source catches and logs; their side effects are outside the
store, so a `setState` / `undo` call's notifications are recorded as the
list of `notify(key, newValue, oldValue)` calls it makes, in order.
`deepClone` threads the fresh-address counter. -/

/-- `{ timestamp, oldState, newState, source }` pushed by `saveToHistory`. -/
structure HistEntry where
  timestamp : Nat
  oldState : JSVal
  newState : JSVal
  source : String
deriving DecidableEq, Repr

/-- The mutable fields of `StateService` the claims depend on. -/
structure StateSvc where
  state : JSVal
  history : List HistEntry
  maxHistorySize : Nat
deriving DecidableEq, Repr

/-- One `notify(key, newValue, oldValue)` call. -/
structure Notif where
  key : String
  newValue : JSVal
  oldValue : JSVal
deriving DecidableEq, Repr

/-- The `Object.entries(updates).forEach` body of `setState`: for each
update in order, `this.state[key] !== value` (strict, so reference
comparison on objects) decides whether the key joins `changes` — recording
`{old, new}` — and is written into the live state.  Returns the updated
state and the changes in order. -/
def applyUpdates : JSVal → List (String × JSVal) → JSVal × List Notif
  | st, [] => (st, [])
  | st, (k, v) :: rest =>
    if jsStrictEq (getField st k) v then applyUpdates st rest
    else
      let old := getField st k
      let p := applyUpdates (setField st k v) rest
      (p.1, ⟨k, v, old⟩ :: p.2)

/-- `StateService.saveToHistory`: push `{timestamp, deepClone(oldState),
deepClone(newState), source}`, then `shift()` once if the length exceeds
`maxHistorySize`. -/
def saveToHistory (hist : List HistEntry) (maxSize : Nat)
    (oldState newState : JSVal) (source : String) (now ctr : Nat) :
    List HistEntry × Nat :=
  let p := deepClone oldState ctr
  let q := deepClone newState p.2
  let h := hist ++ [⟨now, p.1, q.1, source⟩]
  (if maxSize < h.length then h.drop 1 else h, q.2)

/-- `StateService.setState(updates, source)`: clone the old state, apply
the updates collecting `changes`, run middleware (observers, not
modelled), `notify(key, change.new, change.old)` per changed key in order,
and `saveToHistory(oldState, this.state, source)` unconditionally. -/
def setState (svc : StateSvc) (updates : List (String × JSVal))
    (source : String) (now ctr : Nat) : StateSvc × Nat × List Notif :=
  let p := deepClone svc.state ctr
  let q := applyUpdates svc.state updates
  let notifs := q.2.map (fun ch => Notif.mk ch.key ch.newValue ch.oldValue)
  let h := saveToHistory svc.history svc.maxHistorySize p.1 q.1 source now p.2
  (⟨q.1, h.1, svc.maxHistorySize⟩, h.2, notifs)

/-- `StateService.getState(key = null)`: a truthy key returns
`this.state[key]` — the internal value itself, no clone; otherwise
(`null` or `""`) the whole document is deep-cloned. -/
def getState (state : JSVal) (key : Option String) (ctr : Nat) : JSVal × Nat :=
  match key with
  | some k => if k = "" then deepClone state ctr else (getField state k, ctr)
  | none => deepClone state ctr

/-- A placeholder entry (indexing `history[length - 2]` is guarded by the
length check, so the default is never read on that path). -/
def dummyEntry : HistEntry := ⟨0, .null, .null, ""⟩

/-- `StateService.undo()`: with fewer than two history entries, return
`false` untouched; otherwise set `this.state` to a deep clone of
`history[length-2].newState`, pop the last entry, and
`notify(key, this.state[key], previous.oldState[key])` for every
`Object.keys(this.state)` in order.  Returns (returned boolean, service
afterwards, counter, notify calls). -/
def undo (svc : StateSvc) (ctr : Nat) : Bool × StateSvc × Nat × List Notif :=
  if svc.history.length < 2 then (false, svc, ctr, [])
  else
    let previous := svc.history.getD (svc.history.length - 2) dummyEntry
    let p := deepClone previous.newState ctr
    let notifs := (topKeys p.1).map
      (fun k => Notif.mk k (getField p.1 k) (getField previous.oldState k))
    (true, ⟨p.1, svc.history.dropLast, svc.maxHistorySize⟩, p.2, notifs)

/-! ## Write queue (`queueRequest` / `processQueue`)

The queue runs on the single cooperative JS scheduler (one logical thread,
interleaving only at `await` points).  `queueRequest` pushes
`{requestFn, resolve, reject}` and calls `processQueue`, which returns at
once when `this.processing` is set, so at most one drain loop exists; the
loop repeatedly `shift()`s the head, awaits its `requestFn` (the in-flight
period), settles the promise, and awaits `delay(100)` before the next
head.  The transition system below has one state per interleaving point:
`submit` appends a request id (after which `processing` is true, as the
synchronous part of `processQueue` leaves it); `start` moves the head
in-flight — only when no request is in flight, which encodes that the one
drain loop is at its `await requestFn()`; `finish` settles the in-flight
request (resolve or reject) and records the 100 ms inter-operation delay;
`stop` ends the drain when the queue is empty.  Request latencies are the
arbitrary interleavings of `finish` with `submit`. -/

/-- Settlement / delay events of the write queue, in wall order. -/
inductive QEvent where
  | settle : Nat → QEvent
  | delayEv : Nat → QEvent
deriving DecidableEq, Repr

/-- A snapshot of the queue machinery between interleaving points. -/
structure QState where
  queue : List Nat
  inflight : Option Nat
  processing : Bool
  settled : List Nat
  submitted : List Nat
  trace : List QEvent
deriving DecidableEq, Repr

/-- No request submitted yet (`requestQueue = []`, `processing = false`). -/
def QState.init : QState := ⟨[], none, false, [], [], []⟩

/-- The interleaving steps of `queueRequest` / `processQueue`. -/
inductive QStep : QState → QState → Prop
  | submit (s : QState) (i : Nat) :
      QStep s ⟨s.queue ++ [i], s.inflight, true, s.settled,
        s.submitted ++ [i], s.trace⟩
  | start (s : QState) (i : Nat) (t : List Nat) :
      s.processing = true → s.inflight = none → s.queue = i :: t →
      QStep s ⟨t, some i, true, s.settled, s.submitted, s.trace⟩
  | finish (s : QState) (i : Nat) :
      s.inflight = some i →
      QStep s ⟨s.queue, none, s.processing, s.settled ++ [i], s.submitted,
        s.trace ++ [.settle i, .delayEv 100]⟩
  | stop (s : QState) :
      s.processing = true → s.inflight = none → s.queue = [] →
      QStep s ⟨s.queue, s.inflight, false, s.settled, s.submitted, s.trace⟩

/-- States reachable from the empty queue. -/
def QReachable (s : QState) : Prop :=
  Relation.ReflTransGen QStep QState.init s


/-- The invocation and backoff events of `j` consecutive failing attempts
starting at attempt `a`, with base delay `d`. -/
def failEvents (d : Nat) : Nat → Nat → List ExecEvent
  | _, 0 => []
  | a, j + 1 => .invoke a :: .delayed (d * a) :: failEvents d (a + 1) j

/-- The inductive invariant of the write queue: the submission order is the
settled requests, then the in-flight one, then the pending queue; and the
trace is exactly a settlement followed by the 100 ms delay per settled
request, in settlement order. -/
def queueInvariant (s : QState) : Prop :=
  s.settled ++ s.inflight.toList ++ s.queue = s.submitted ∧
  s.trace = s.settled.flatMap (fun i => [QEvent.settle i, QEvent.delayEv 100])

/-! ### Concrete inputs used by the closed scenarios below -/

/-- A state document with two object-valued slots, used to exhibit
reference sharing through `getState(key)`. -/
def demoState : JSVal :=
  .obj 0 (.cons "products" (.arr 1 (.cons (.num 5) .nil))
    (.cons "cart" (.arr 2 .nil) .nil))

/-- A store with two committed history entries, used for `undo`. -/
def demoSvc : StateSvc :=
  { state := .obj 0 (.cons "cart" (.num 2) .nil)
    history :=
      [ ⟨10, .obj 3 (.cons "cart" (.num 0) .nil),
            .obj 4 (.cons "cart" (.num 1) .nil), "a"⟩,
        ⟨20, .obj 5 (.cons "cart" (.num 1) .nil),
            .obj 6 (.cons "cart" (.num 2) .nil), "b"⟩ ]
    maxHistorySize := 50 }

/-- A fetch that throws on attempts 1 and 2 and returns `{data: 42}` on
attempt 3 (the spec scenario for `execute`). -/
def scenarioFetch : Nat → Outcome :=
  fun i => if i ≤ 2 then .throwErr "network" else .ret (.num 42) none

/-- The first `execute(fetchFn, "k", {retries: 3})` call of the scenario,
on an empty cache at time 0, with the source defaults
(`cacheTTL = 300000`, `retryDelay = 1000`, capacity 50). -/
def scenarioOut : ExecOut :=
  execute scenarioFetch (some "k") true 300000 3 1000 50 [] 0

/-- A cache whose only entry is fresh (ttl 300000, written at 0) but holds
the falsy value `0`. -/
def falsyCache : MemCache := setMemory 50 0 [] "k" (.num 0) 300000

/-- A cache holding a fresh `categories_all` entry. -/
def freshCatCache : MemCache := setMemory 50 0 [] "categories_all" (.num 9) 300000

/-- A cache holding fresh `products_all` and `product_3` entries. -/
def freshProdCache : MemCache :=
  insertAll 50 0 300000 [] [("products_all", .num 1), ("product_3", .num 3)]

/-- A cache whose only entry was written at time 0 with ttl 5 (the TTL
boundary example). -/
def boundaryCache : MemCache := setMemory 50 0 [] "k" (.num 7) 5

/-! ## Lemmas -/

mutual

theorem stripAddrs_deepClone (v : JSVal) (c : Nat) :
    stripAddrs (deepClone v c).1 = stripAddrs v := by
  cases v with
  | null => rfl
  | undefined => rfl
  | bool b => rfl
  | num n => rfl
  | str s => rfl
  | date a t => rfl
  | arr a xs => simp [deepClone, stripAddrs, stripAddrsL_deepCloneL]
  | obj a fs => simp [deepClone, stripAddrs, stripAddrsF_deepCloneF]

theorem stripAddrsL_deepCloneL (xs : JSList) (c : Nat) :
    stripAddrsL (deepCloneL xs c).1 = stripAddrsL xs := by
  cases xs with
  | nil => rfl
  | cons x xs =>
    simp [deepCloneL, stripAddrsL, stripAddrs_deepClone, stripAddrsL_deepCloneL]

theorem stripAddrsF_deepCloneF (fs : JSFields) (c : Nat) :
    stripAddrsF (deepCloneF fs c).1 = stripAddrsF fs := by
  cases fs with
  | nil => rfl
  | cons k v fs =>
    simp [deepCloneF, stripAddrsF, stripAddrs_deepClone, stripAddrsF_deepCloneF]

end


mutual

theorem deepClone_counter_le (v : JSVal) (c : Nat) : c ≤ (deepClone v c).2 := by
  cases v with
  | null => exact Nat.le_refl c
  | undefined => exact Nat.le_refl c
  | bool b => exact Nat.le_refl c
  | num n => exact Nat.le_refl c
  | str s => exact Nat.le_refl c
  | date a t => exact Nat.le_succ c
  | arr a xs =>
    have h := deepCloneL_counter_le xs c
    simp only [deepClone]
    omega
  | obj a fs =>
    have h := deepCloneF_counter_le fs c
    simp only [deepClone]
    omega

theorem deepCloneL_counter_le (xs : JSList) (c : Nat) : c ≤ (deepCloneL xs c).2 := by
  cases xs with
  | nil => exact Nat.le_refl c
  | cons x xs =>
    have h1 := deepClone_counter_le x c
    have h2 := deepCloneL_counter_le xs (deepClone x c).2
    simp only [deepCloneL]
    omega

theorem deepCloneF_counter_le (fs : JSFields) (c : Nat) : c ≤ (deepCloneF fs c).2 := by
  cases fs with
  | nil => exact Nat.le_refl c
  | cons k v fs =>
    have h1 := deepClone_counter_le v c
    have h2 := deepCloneF_counter_le fs (deepClone v c).2
    simp only [deepCloneF]
    omega

end


mutual

theorem deepClone_addrs_fresh (v : JSVal) (c : Nat) :
    ∀ a ∈ addrs (deepClone v c).1, c ≤ a := by
  cases v with
  | null => intro a ha; cases ha
  | undefined => intro a ha; cases ha
  | bool b => intro a ha; cases ha
  | num n => intro a ha; cases ha
  | str s => intro a ha; cases ha
  | date a0 t =>
    intro a ha
    simp only [deepClone, addrs, List.mem_singleton] at ha
    omega
  | arr a0 xs =>
    intro a ha
    simp only [deepClone, addrs, List.mem_cons] at ha
    rcases ha with h | h
    · have := deepCloneL_counter_le xs c; omega
    · exact deepCloneL_addrs_fresh xs c a h
  | obj a0 fs =>
    intro a ha
    simp only [deepClone, addrs, List.mem_cons] at ha
    rcases ha with h | h
    · have := deepCloneF_counter_le fs c; omega
    · exact deepCloneF_addrs_fresh fs c a h

theorem deepCloneL_addrs_fresh (xs : JSList) (c : Nat) :
    ∀ a ∈ addrsL (deepCloneL xs c).1, c ≤ a := by
  cases xs with
  | nil => intro a ha; cases ha
  | cons x xs =>
    intro a ha
    simp only [deepCloneL, addrsL, List.mem_append] at ha
    rcases ha with h | h
    · exact deepClone_addrs_fresh x c a h
    · have h1 := deepClone_counter_le x c
      have h2 := deepCloneL_addrs_fresh xs (deepClone x c).2 a h
      omega

theorem deepCloneF_addrs_fresh (fs : JSFields) (c : Nat) :
    ∀ a ∈ addrsF (deepCloneF fs c).1, c ≤ a := by
  cases fs with
  | nil => intro a ha; cases ha
  | cons k v fs =>
    intro a ha
    simp only [deepCloneF, addrsF, List.mem_append] at ha
    rcases ha with h | h
    · exact deepClone_addrs_fresh v c a h
    · have h1 := deepClone_counter_le v c
      have h2 := deepCloneF_addrs_fresh fs (deepClone v c).2 a h
      omega

end

theorem jsStrictEq_refl (v : JSVal) : jsStrictEq v v = true := by
  cases v <;> simp [jsStrictEq]

theorem mapLookup_mapDelete (c : MemCache) (k : String) :
    mapLookup (mapDelete c k) k = none := by
  induction c with
  | nil => rfl
  | cons p rest ih =>
    simp only [mapDelete, List.filter_cons] at *
    by_cases h : p.1 = k
    · simpa [h] using ih
    · simpa [mapLookup, List.find?, h, bne_iff_ne, beq_iff_eq] using ih

/-! ## Claim theorems -/

/-- C2, counterexample to the claim as stated: the entry for `"k"` was
written at time 0 with ttl 5; at `now = 5` we have `now − createdAt ≥ ttl`,
yet `getMemory` still returns the stored value and leaves the cache
untouched (the source expires strictly: `now − timestamp > ttl`). -/
theorem claim_C2_counterexample :
    mapLookup boundaryCache "k" = some ⟨.num 7, 0, 5⟩ ∧
    5 - 0 ≥ 5 ∧
    getMemory 5 boundaryCache "k" = (some (.num 7), boundaryCache) := by
  decide

/-- C2, amended: for every key held in the fast tier, a read at `now`
returns the stored value when `now − createdAt ≤ ttl`, and returns absent
with the entry removed when `now − createdAt > ttl`; validity is decided
from `now` on each read. -/
theorem getMemory_ttl_boundary (now : Nat) (c : MemCache) (k : String)
    (e : MemEntry) (hl : mapLookup c k = some e) :
    (now - e.timestamp ≤ e.ttl → getMemory now c k = (some e.value, c)) ∧
    (e.ttl < now - e.timestamp → getMemory now c k = (none, mapDelete c k)) ∧
    mapLookup (mapDelete c k) k = none := by
  refine ⟨?_, ?_, mapLookup_mapDelete c k⟩
  · intro h
    simp only [getMemory, hl]
    rw [if_neg (by omega)]
  · intro h
    simp only [getMemory, hl]
    rw [if_pos (by omega)]

/-- C2 witness: a concrete fresh entry is returned and a concrete expired
entry is removed. -/
theorem getMemory_ttl_boundary_witness :
    mapLookup boundaryCache "k" = some ⟨.num 7, 0, 5⟩ ∧
    getMemory 3 boundaryCache "k" = (some (.num 7), boundaryCache) ∧
    getMemory 6 boundaryCache "k" = (none, mapDelete boundaryCache "k") :=
  ⟨by decide,
   (getMemory_ttl_boundary 3 boundaryCache "k" ⟨.num 7, 0, 5⟩ (by decide)).1
     (by decide),
   ((getMemory_ttl_boundary 6 boundaryCache "k" ⟨.num 7, 0, 5⟩ (by decide)).2).1
     (by decide)⟩

/-- C3: the code contradicts its stated intent.  `invalidateCache` calls
`cacheManager.get(...)` on the family's exact key — which only deletes an
already-expired entry — instead of deleting it.  On a cache holding a
fresh `categories_all` entry, `invalidateCache("categories")` changes
nothing and the subsequent read is a hit; for the `products` pattern the
`product_`-prefixed keys are deleted but the exact key `products_all`
survives (it does not start with `product_`) and is still a hit. -/
theorem invalidateCache_leaves_exact_key :
    invalidateCache "categories" 0 freshCatCache = freshCatCache ∧
    (getMemory 0 (invalidateCache "categories" 0 freshCatCache)
      "categories_all").1 = some (.num 9) ∧
    (getMemory 0 (invalidateCache "products" 0 freshProdCache)
      "products_all").1 = some (.num 1) ∧
    (getMemory 0 (invalidateCache "products" 0 freshProdCache)
      "product_3").1 = none := by
  decide

theorem mapSet_fresh (c : MemCache) (k : String) (e : MemEntry)
    (h : ∀ p ∈ c, p.1 ≠ k) : mapSet c k e = c ++ [(k, e)] := by
  have hany : c.any (fun p => p.1 == k) = false := by
    rw [List.any_eq_false]
    intro p hp
    simpa using h p hp
  simp [mapSet, hany]

theorem insertAll_no_evict (maxSize now ttl : Nat) (kvs : List (String × JSVal)) :
    ∀ c : MemCache, c.length + kvs.length ≤ maxSize →
    (∀ kv ∈ kvs, ∀ p ∈ c, p.1 ≠ kv.1) →
    (kvs.map Prod.fst).Nodup →
    insertAll maxSize now ttl c kvs =
      c ++ kvs.map (fun kv => (kv.1, ⟨kv.2, now, ttl⟩)) := by
  induction kvs with
  | nil => intro c _ _ _; simp [insertAll]
  | cons kv rest ih =>
    intro c hlen hdisj hnd
    have hnd2 : (kv.1 :: rest.map Prod.fst).Nodup := by
      simpa only [List.map_cons] using hnd
    have hkfresh : kv.1 ∉ rest.map Prod.fst := (List.nodup_cons.mp hnd2).1
    have hndrest : (rest.map Prod.fst).Nodup := (List.nodup_cons.mp hnd2).2
    have hlt : ¬ maxSize ≤ c.length := by
      simp only [List.length_cons] at hlen; omega
    have hstep : setMemory maxSize now c kv.1 kv.2 ttl =
        c ++ [(kv.1, ⟨kv.2, now, ttl⟩)] := by
      unfold setMemory
      rw [if_neg hlt]
      exact mapSet_fresh c kv.1 _ (fun p hp => hdisj kv (by simp) p hp)
    have hrest : insertAll maxSize now ttl (c ++ [(kv.1, ⟨kv.2, now, ttl⟩)]) rest =
        (c ++ [(kv.1, ⟨kv.2, now, ttl⟩)]) ++
          rest.map (fun kv => (kv.1, ⟨kv.2, now, ttl⟩)) := by
      apply ih
      · simp only [List.length_append, List.length_cons, List.length_nil] at *
        omega
      · intro kv' hkv' p hp
        rcases List.mem_append.mp hp with hc | hone
        · exact hdisj kv' (List.mem_cons_of_mem kv hkv') p hc
        · have hpk : p.1 = kv.1 := by
            simp only [List.mem_singleton] at hone
            rw [hone]
          rw [hpk]
          intro hcontra
          exact hkfresh (hcontra ▸ List.mem_map_of_mem Prod.fst hkv')
      · exact hndrest
    calc insertAll maxSize now ttl c (kv :: rest)
        = insertAll maxSize now ttl (setMemory maxSize now c kv.1 kv.2 ttl) rest :=
          rfl
      _ = c ++ (kv :: rest).map (fun kv => (kv.1, ⟨kv.2, now, ttl⟩)) := by
          rw [hstep, hrest]; simp

/-- C6: FIFO eviction.  Inserting `C+1` distinct keys into an initially
empty fast tier of capacity `C > 0` leaves exactly the last `C` inserted
keys with their original values, in insertion order, and the
first-inserted key is the one evicted (its key is bound to no entry). -/
theorem fifo_eviction (C : Nat) (hC : 0 < C) (kv0 : String × JSVal)
    (rest : List (String × JSVal)) (now ttl : Nat)
    (hlen : rest.length = C)
    (hnd : ((kv0 :: rest).map Prod.fst).Nodup) :
    insertAll C now ttl [] (kv0 :: rest) =
      rest.map (fun kv => (kv.1, ⟨kv.2, now, ttl⟩)) ∧
    ∀ p ∈ insertAll C now ttl [] (kv0 :: rest), p.1 ≠ kv0.1 := by
  have hne : rest ≠ [] := by
    intro h; rw [h] at hlen; simp at hlen; omega
  have hsplit : rest.dropLast ++ [rest.getLast hne] = rest :=
    List.dropLast_append_getLast hne
  have hnd2 : (kv0.1 :: rest.map Prod.fst).Nodup := by
    simpa only [List.map_cons] using hnd
  have hk0 : kv0.1 ∉ rest.map Prod.fst := (List.nodup_cons.mp hnd2).1
  have hnd' : (rest.map Prod.fst).Nodup := (List.nodup_cons.mp hnd2).2
  -- first insert into the empty cache
  have h0 : setMemory C now [] kv0.1 kv0.2 ttl = [(kv0.1, ⟨kv0.2, now, ttl⟩)] := by
    unfold setMemory
    rw [if_neg (by simp only [List.length_nil]; omega)]
    rfl
  -- the first C inserts cause no eviction
  have hdl_len : rest.dropLast.length = C - 1 := by
    rw [List.length_dropLast, hlen]
  have hfill : insertAll C now ttl [(kv0.1, ⟨kv0.2, now, ttl⟩)] rest.dropLast =
      (kv0.1, (⟨kv0.2, now, ttl⟩ : MemEntry)) ::
        rest.dropLast.map (fun kv => (kv.1, ⟨kv.2, now, ttl⟩)) := by
    have := insertAll_no_evict C now ttl rest.dropLast
      [(kv0.1, ⟨kv0.2, now, ttl⟩)]
      (by simp only [List.length_singleton, hdl_len]; omega)
      (by
        intro kv hkv p hp
        simp only [List.mem_singleton] at hp
        rw [hp]
        intro hcontra
        exact hk0 (by
          rw [hcontra]
          exact List.mem_map_of_mem Prod.fst (List.dropLast_subset rest hkv)))
      (by
        rw [List.map_dropLast]
        exact hnd'.sublist (List.dropLast_sublist _))
    simpa using this
  -- the key of the last insert is fresh among the surviving ones
  have hlast_fresh : (rest.getLast hne).1 ∉ rest.dropLast.map Prod.fst := by
    intro hmem
    have h2 : (rest.dropLast.map Prod.fst ++ [(rest.getLast hne).1]).Nodup := by
      rw [show rest.dropLast.map Prod.fst ++ [(rest.getLast hne).1] =
          (rest.dropLast ++ [rest.getLast hne]).map Prod.fst by simp, hsplit]
      exact hnd'
    exact (List.nodup_append.mp h2).2.2 hmem (by simp)
  -- the last insert happens at capacity and drops the head
  have hfinal : setMemory C now
      ((kv0.1, (⟨kv0.2, now, ttl⟩ : MemEntry)) ::
        rest.dropLast.map (fun kv => (kv.1, ⟨kv.2, now, ttl⟩)))
      (rest.getLast hne).1 (rest.getLast hne).2 ttl =
      rest.map (fun kv => (kv.1, ⟨kv.2, now, ttl⟩)) := by
    unfold setMemory
    rw [if_pos (by
      simp only [List.length_cons, List.length_map, hdl_len]; omega)]
    simp only [List.drop_one, List.tail_cons]
    rw [mapSet_fresh _ _ _ (by
      intro p hp
      rcases List.mem_map.mp hp with ⟨kv, hkv, hpkv⟩
      rw [← hpkv]
      intro hcontra
      exact hlast_fresh (hcontra ▸ List.mem_map_of_mem Prod.fst hkv))]
    rw [show rest.dropLast.map (fun kv => ((kv.1 : String),
        (⟨kv.2, now, ttl⟩ : MemEntry))) ++
        [((rest.getLast hne).1, ⟨(rest.getLast hne).2, now, ttl⟩)] =
        (rest.dropLast ++ [rest.getLast hne]).map
          (fun kv => (kv.1, ⟨kv.2, now, ttl⟩)) by simp, hsplit]
  have hmain : insertAll C now ttl [] (kv0 :: rest) =
      rest.map (fun kv => (kv.1, ⟨kv.2, now, ttl⟩)) := by
    have step1 : insertAll C now ttl [] (kv0 :: rest) =
        insertAll C now ttl [(kv0.1, ⟨kv0.2, now, ttl⟩)] rest := by
      show insertAll C now ttl (setMemory C now [] kv0.1 kv0.2 ttl) rest = _
      rw [h0]
    rw [step1, ← hsplit]
    show List.foldl _ _ (rest.dropLast ++ [rest.getLast hne]) = _
    rw [List.foldl_append]
    have hmid : List.foldl
        (fun acc kv => setMemory C now acc kv.1 kv.2 ttl)
        [(kv0.1, ⟨kv0.2, now, ttl⟩)] rest.dropLast =
        (kv0.1, (⟨kv0.2, now, ttl⟩ : MemEntry)) ::
          rest.dropLast.map (fun kv => (kv.1, ⟨kv.2, now, ttl⟩)) := hfill
    rw [hmid]
    show setMemory C now _ (rest.getLast hne).1 (rest.getLast hne).2 ttl = _
    rw [hfinal, hsplit]
  refine ⟨hmain, ?_⟩
  intro p hp
  rw [hmain] at hp
  rcases List.mem_map.mp hp with ⟨kv, hkv, hpkv⟩
  rw [← hpkv]
  intro hcontra
  exact hk0 (hcontra ▸ List.mem_map_of_mem Prod.fst hkv)

/-- C6 witness: the spec's own scenario — capacity 2, insert `a`, `b`,
`c` — leaves exactly `b` and `c`, and the surviving binding for `b` does
not carry the evicted key `a`. -/
theorem fifo_eviction_witness :
    insertAll 2 0 100 [] [("a", .num 1), ("b", .num 2), ("c", .num 3)] =
      [("b", ⟨.num 2, 0, 100⟩), ("c", ⟨.num 3, 0, 100⟩)] ∧
    ("b", (⟨.num 2, 0, 100⟩ : MemEntry)).1 ≠ "a" :=
  ⟨(fifo_eviction 2 (by decide) ("a", .num 1) [("b", .num 2), ("c", .num 3)]
      0 100 (by decide) (by decide)).1,
   (fifo_eviction 2 (by decide) ("a", .num 1) [("b", .num 2), ("c", .num 3)]
      0 100 (by decide) (by decide)).2 ("b", ⟨.num 2, 0, 100⟩) (by decide)⟩

theorem delaysOf_append (a b : List ExecEvent) :
    delaysOf (a ++ b) = delaysOf a ++ delaysOf b :=
  List.filterMap_append a b _

theorem delaysOf_cons_invoke (n : Nat) (l : List ExecEvent) :
    delaysOf (.invoke n :: l) = delaysOf l := rfl

theorem delaysOf_cons_delayed (m : Nat) (l : List ExecEvent) :
    delaysOf (.delayed m :: l) = m :: delaysOf l := rfl

theorem delaysOf_failEvents (d : Nat) (j : Nat) :
    ∀ a, delaysOf (failEvents d a j) = (List.range' a j).map (fun i => d * i) := by
  induction j with
  | zero => intro a; rfl
  | succ j ih =>
    intro a
    rw [List.range'_succ, List.map_cons]
    show delaysOf (.invoke a :: .delayed (d * a) :: failEvents d (a + 1) j) = _
    rw [delaysOf_cons_invoke, delaysOf_cons_delayed, ih (a + 1)]

theorem execLoop_success (op : Nat → Outcome) (uc : Bool)
    (ttl d maxSize : Nat) (dta : JSVal) (j : Nat) :
    ∀ (fuel attempt : Nat) (le0 : Option String) (cache : MemCache)
      (t : Nat) (evs : List ExecEvent),
    j < fuel →
    (∀ i, attempt ≤ i → i < attempt + j → (op i).isFail = true) →
    op (attempt + j) = .ret dta none →
    execLoop op uc none ttl d maxSize fuel attempt le0 cache t evs =
      ⟨⟨dta, none, false⟩, cache, t + d * (List.range' attempt j).sum,
        evs ++ failEvents d attempt j ++ [.invoke (attempt + j)]⟩ := by
  induction j with
  | zero =>
    intro fuel attempt le0 cache t evs hj hfail hsucc
    match fuel, hj with
    | fuel + 1, _ =>
      simp only [Nat.add_zero] at hsucc
      simp only [execLoop, hsucc]
      simp [failEvents]
  | succ j ih =>
    intro fuel attempt le0 cache t evs hj hfail hsucc
    match fuel, hj with
    | fuel + 1, hj =>
      have hfuel : fuel ≠ 0 := by omega
      have hf0 : (op attempt).isFail = true :=
        hfail attempt (Nat.le_refl _) (by omega)
      have hfail' : ∀ i, attempt + 1 ≤ i → i < attempt + 1 + j →
          (op i).isFail = true := by
        intro i h1 h2; exact hfail i (by omega) (by omega)
      have hsucc' : op (attempt + 1 + j) = .ret dta none := by
        rw [show attempt + 1 + j = attempt + (j + 1) by omega]; exact hsucc
      have hrec := ih fuel (attempt + 1) (some (op attempt).failMsg) cache
        (t + d * attempt)
        ((evs ++ [.invoke attempt]) ++ [.delayed (d * attempt)])
        (by omega) hfail' hsucc'
      have hstep : execLoop op uc none ttl d maxSize (fuel + 1) attempt le0
          cache t evs =
          execLoop op uc none ttl d maxSize fuel (attempt + 1)
            (some (op attempt).failMsg) cache (t + d * attempt)
            ((evs ++ [.invoke attempt]) ++ [.delayed (d * attempt)]) := by
        rcases hop : op attempt with msg | ⟨dd, er⟩
        · simp only [execLoop, hop, if_neg hfuel, Outcome.failMsg]
        · rcases er with _ | e
          · rw [hop] at hf0; simp [Outcome.isFail] at hf0
          · simp only [execLoop, hop, if_neg hfuel, Outcome.failMsg]
      rw [hstep, hrec]
      have htime : t + d * attempt + d * (List.range' (attempt + 1) j).sum =
          t + d * (List.range' attempt (j + 1)).sum := by
        rw [List.range'_succ, List.sum_cons, Nat.mul_add]
        omega
      have hevs : ((evs ++ [.invoke attempt]) ++ [.delayed (d * attempt)]) ++
          failEvents d (attempt + 1) j ++ [.invoke (attempt + 1 + j)] =
          evs ++ failEvents d attempt (j + 1) ++ [.invoke (attempt + (j + 1))] := by
        simp only [failEvents, List.append_assoc, List.cons_append,
          List.singleton_append]
        rw [show attempt + 1 + j = attempt + (j + 1) by omega]
        simp
      rw [htime, hevs]

theorem execLoop_allfail (op : Nat → Outcome) (uc : Bool)
    (ttl d maxSize : Nat) :
    ∀ (fuel attempt : Nat) (le0 : Option String) (cache : MemCache)
      (t : Nat) (evs : List ExecEvent),
    1 ≤ fuel →
    (∀ i, attempt ≤ i → i < attempt + fuel → (op i).isFail = true) →
    execLoop op uc none ttl d maxSize fuel attempt le0 cache t evs =
      ⟨⟨.null, some ((op (attempt + fuel - 1)).failMsg), false⟩, cache,
        t + d * (List.range' attempt (fuel - 1)).sum,
        evs ++ failEvents d attempt (fuel - 1) ++
          [.invoke (attempt + fuel - 1)]⟩ := by
  intro fuel
  induction fuel with
  | zero => intro attempt le0 cache t evs h; omega
  | succ fuel ih =>
    intro attempt le0 cache t evs _ hfail
    have hf0 : (op attempt).isFail = true :=
      hfail attempt (Nat.le_refl _) (by omega)
    by_cases hfz : fuel = 0
    · subst hfz
      rcases hop : op attempt with msg | ⟨dd, er⟩
      · simp only [execLoop, hop]
        simp [failEvents, hop]
      · rcases er with _ | e
        · rw [hop] at hf0; simp [Outcome.isFail] at hf0
        · simp only [execLoop, hop]
          simp [failEvents, hop]
    · have hrec := ih (attempt + 1) (some (op attempt).failMsg) cache
        (t + d * attempt)
        ((evs ++ [.invoke attempt]) ++ [.delayed (d * attempt)])
        (by omega)
        (by intro i h1 h2; exact hfail i (by omega) (by omega))
      have hstep : execLoop op uc none ttl d maxSize (fuel + 1) attempt le0
          cache t evs =
          execLoop op uc none ttl d maxSize fuel (attempt + 1)
            (some (op attempt).failMsg) cache (t + d * attempt)
            ((evs ++ [.invoke attempt]) ++ [.delayed (d * attempt)]) := by
        rcases hop : op attempt with msg | ⟨dd, er⟩
        · simp only [execLoop, hop, if_neg hfz, Outcome.failMsg]
        · rcases er with _ | e
          · rw [hop] at hf0; simp [Outcome.isFail] at hf0
          · simp only [execLoop, hop, if_neg hfz, Outcome.failMsg]
      rw [hstep, hrec]
      have h1 : attempt + 1 + fuel - 1 = attempt + (fuel + 1) - 1 := by omega
      have htime : t + d * attempt +
          d * (List.range' (attempt + 1) (fuel - 1)).sum =
          t + d * (List.range' attempt (fuel + 1 - 1)).sum := by
        rw [show fuel + 1 - 1 = (fuel - 1) + 1 by omega, List.range'_succ,
          List.sum_cons, Nat.mul_add]
        omega
      have hevs : ((evs ++ [.invoke attempt]) ++ [.delayed (d * attempt)]) ++
          failEvents d (attempt + 1) (fuel - 1) ++
          [.invoke (attempt + (fuel + 1) - 1)] =
          evs ++ failEvents d attempt (fuel + 1 - 1) ++
            [.invoke (attempt + (fuel + 1) - 1)] := by
        rw [show fuel + 1 - 1 = (fuel - 1) + 1 by omega]
        simp only [failEvents, List.append_assoc, List.cons_append,
          List.singleton_append]
        simp
      rw [h1, htime, hevs]

/-- C4: linear retry with backoff.  With no cache key (so the pure retry
path), an operation failing on attempts `1..k−1` and succeeding on attempt
`k ≤ retries` resolves with the successful result (`error` empty,
`fromCache` falsy) after exactly the backoff delays `d·1, …, d·(k−1)`; an
operation failing on every one of `retries ≥ 1` attempts resolves — it
never throws: `execute` is total and always produces a result value — with
`data: null` and the last error as descriptor, after exactly the delays
`d·1, …, d·(retries−1)`. -/
theorem execute_retry_backoff (op : Nat → Outcome) (uc : Bool)
    (ttl retries d maxSize : Nat) (cache : MemCache) (now : Nat) :
    (∀ k dta, 1 ≤ k → k ≤ retries →
      (∀ i, 1 ≤ i → i < k → (op i).isFail = true) →
      op k = .ret dta none →
      (execute op none uc ttl retries d maxSize cache now).result =
        ⟨dta, none, false⟩ ∧
      delaysOf (execute op none uc ttl retries d maxSize cache now).events =
        (List.range' 1 (k - 1)).map (fun i => d * i)) ∧
    (1 ≤ retries →
      (∀ i, 1 ≤ i → i ≤ retries → (op i).isFail = true) →
      (execute op none uc ttl retries d maxSize cache now).result =
        ⟨.null, some ((op retries).failMsg), false⟩ ∧
      delaysOf (execute op none uc ttl retries d maxSize cache now).events =
        (List.range' 1 (retries - 1)).map (fun i => d * i)) := by
  have hexec : execute op none uc ttl retries d maxSize cache now =
      execLoop op uc none ttl d maxSize retries 1 none cache now [] := rfl
  constructor
  · intro k dta hk1 hkr hfail hsucc
    have hrun := execLoop_success op uc ttl d maxSize dta (k - 1) retries 1 none
      cache now [] (by omega)
      (by intro i h1 h2; exact hfail i h1 (by omega))
      (by rw [show 1 + (k - 1) = k by omega]; exact hsucc)
    rw [hexec, hrun]
    refine ⟨rfl, ?_⟩
    show delaysOf ([] ++ failEvents d 1 (k - 1) ++ [.invoke (1 + (k - 1))]) = _
    rw [List.nil_append, delaysOf_append, delaysOf_failEvents]
    simp [delaysOf]
  · intro hr hfail
    have hrun := execLoop_allfail op uc ttl d maxSize retries 1 none cache now []
      hr (by intro i h1 h2; exact hfail i h1 (by omega))
    rw [hexec, hrun]
    constructor
    · show ExecResult.mk .null (some ((op (1 + retries - 1)).failMsg)) false = _
      rw [show 1 + retries - 1 = retries by omega]
    · show delaysOf ([] ++ failEvents d 1 (retries - 1) ++
        [.invoke (1 + retries - 1)]) = _
      rw [List.nil_append, delaysOf_append, delaysOf_failEvents]
      simp [delaysOf]

/-- C4 witness: the scenario fetch (fails twice, succeeds with 42 on
attempt 3) under `retries = 3`, base delay 1000. -/
theorem execute_retry_backoff_witness :
    (execute scenarioFetch none true 300000 3 1000 50 [] 0).result =
      ⟨.num 42, none, false⟩ ∧
    delaysOf (execute scenarioFetch none true 300000 3 1000 50 [] 0).events =
      (List.range' 1 2).map (fun i => 1000 * i) :=
  (execute_retry_backoff scenarioFetch true 300000 3 1000 50 [] 0).1 3 (.num 42)
    (by decide) (by decide)
    (by intro i h1 h2; interval_cases i <;> decide)
    (by decide)

theorem execute_cache_hit (op : Nat → Outcome) (k : String)
    (ttl retries d maxSize : Nat) (cache : MemCache) (now : Nat) (e : MemEntry)
    (hl : mapLookup cache k = some e) (hv : now - e.timestamp ≤ e.ttl)
    (ht : truthy e.value = true) :
    execute op (some k) true ttl retries d maxSize cache now =
      ⟨⟨e.value, none, true⟩, cache, now, []⟩ := by
  have hg : getMemory now cache k = (some e.value, cache) := by
    simp only [getMemory, hl]
    rw [if_neg (by omega)]
  unfold execute
  simp only [hg, ht, if_true]

theorem execLoop_events_extend (op : Nat → Outcome) (uc : Bool)
    (ck : Option String) (ttl d maxSize : Nat) :
    ∀ (fuel attempt : Nat) (le0 : Option String) (cache : MemCache) (t : Nat)
      (evs : List ExecEvent), ∃ rest,
    (execLoop op uc ck ttl d maxSize fuel attempt le0 cache t evs).events =
      evs ++ rest := by
  intro fuel
  induction fuel with
  | zero =>
    intro attempt le0 cache t evs
    exact ⟨[], by simp [execLoop]⟩
  | succ fuel ih =>
    intro attempt le0 cache t evs
    rcases hop : op attempt with msg | ⟨dd, er⟩
    · by_cases hfz : fuel = 0
      · subst hfz
        exact ⟨[.invoke attempt], by simp [execLoop, hop]⟩
      · obtain ⟨rest, hr⟩ := ih (attempt + 1) (some msg) cache (t + d * attempt)
          ((evs ++ [.invoke attempt]) ++ [.delayed (d * attempt)])
        refine ⟨[.invoke attempt] ++ [.delayed (d * attempt)] ++ rest, ?_⟩
        simp only [execLoop, hop, if_neg hfz, Outcome.failMsg]
        rw [hr]
        simp
    · rcases er with _ | e
      · by_cases hcond : (uc && (ck.isSome && truthy dd)) = true
        · refine ⟨[.invoke attempt, .cacheSet (ck.getD "")], ?_⟩
          simp only [execLoop, hop]
          rw [if_pos (by simpa [Bool.and_assoc] using hcond)]
          simp
        · refine ⟨[.invoke attempt], ?_⟩
          simp only [execLoop, hop]
          rw [if_neg (by simpa [Bool.and_assoc] using hcond)]
      · by_cases hfz : fuel = 0
        · subst hfz
          exact ⟨[.invoke attempt], by simp [execLoop, hop]⟩
        · obtain ⟨rest, hr⟩ := ih (attempt + 1) (some e) cache (t + d * attempt)
            ((evs ++ [.invoke attempt]) ++ [.delayed (d * attempt)])
          refine ⟨[.invoke attempt] ++ [.delayed (d * attempt)] ++ rest, ?_⟩
          simp only [execLoop, hop, if_neg hfz, Outcome.failMsg]
          rw [hr]
          simp

theorem execLoop_invokes (op : Nat → Outcome) (uc : Bool) (ck : Option String)
    (ttl d maxSize : Nat) (fuel attempt : Nat) (le0 : Option String)
    (cache : MemCache) (t : Nat) (evs : List ExecEvent) (h : 1 ≤ fuel) :
    ExecEvent.invoke attempt ∈
      (execLoop op uc ck ttl d maxSize fuel attempt le0 cache t evs).events := by
  match fuel, h with
  | fuel + 1, _ =>
    rcases hop : op attempt with msg | ⟨dd, er⟩
    · by_cases hfz : fuel = 0
      · subst hfz; simp [execLoop, hop]
      · obtain ⟨rest2, hr2⟩ := execLoop_events_extend op uc ck ttl d maxSize fuel
          (attempt + 1) (some msg) cache (t + d * attempt)
          ((evs ++ [.invoke attempt]) ++ [.delayed (d * attempt)])
        simp only [execLoop, hop, if_neg hfz, Outcome.failMsg]
        rw [hr2]
        simp
    · rcases er with _ | e
      · simp only [execLoop, hop]
        split <;> simp
      · by_cases hfz : fuel = 0
        · subst hfz; simp [execLoop, hop]
        · obtain ⟨rest2, hr2⟩ := execLoop_events_extend op uc ck ttl d maxSize fuel
            (attempt + 1) (some e) cache (t + d * attempt)
            ((evs ++ [.invoke attempt]) ++ [.delayed (d * attempt)])
          simp only [execLoop, hop, if_neg hfz, Outcome.failMsg]
          rw [hr2]
          simp

theorem execLoop_no_cacheSet (op : Nat → Outcome) (uc : Bool)
    (ck : Option String) (ttl d maxSize : Nat)
    (hop : ∀ i dta, op i = .ret dta none → truthy dta = false) :
    ∀ (fuel attempt : Nat) (le0 : Option String) (cache : MemCache) (t : Nat)
      (evs : List ExecEvent),
    (∀ ev ∈ evs, ev.isCacheSet = false) →
    ∀ ev ∈ (execLoop op uc ck ttl d maxSize fuel attempt le0 cache t evs).events,
      ev.isCacheSet = false := by
  intro fuel
  induction fuel with
  | zero =>
    intro attempt le0 cache t evs hevs ev hev
    exact hevs ev hev
  | succ fuel ih =>
    intro attempt le0 cache t evs hevs ev hev
    have hevs1 : ∀ ev1 ∈ evs ++ [ExecEvent.invoke attempt],
        ev1.isCacheSet = false := by
      intro ev1 h1
      rcases List.mem_append.mp h1 with h | h
      · exact hevs ev1 h
      · simp only [List.mem_singleton] at h; subst h; rfl
    have hevs2 : ∀ ev1 ∈ (evs ++ [ExecEvent.invoke attempt]) ++
        [ExecEvent.delayed (d * attempt)], ev1.isCacheSet = false := by
      intro ev1 h1
      rcases List.mem_append.mp h1 with h | h
      · exact hevs1 ev1 h
      · simp only [List.mem_singleton] at h; subst h; rfl
    rcases hop2 : op attempt with msg | ⟨dd, er⟩
    · by_cases hfz : fuel = 0
      · subst hfz
        simp only [execLoop, hop2, if_pos rfl] at hev
        exact hevs1 ev hev
      · simp only [execLoop, hop2, if_neg hfz, Outcome.failMsg] at hev
        exact ih (attempt + 1) (some msg) cache (t + d * attempt) _ hevs2 ev hev
    · rcases er with _ | e
      · have hdd : truthy dd = false := hop attempt dd hop2
        simp only [execLoop, hop2, hdd, Bool.and_false, Bool.false_and,
          if_false] at hev
        exact hevs1 ev hev
      · by_cases hfz : fuel = 0
        · subst hfz
          simp only [execLoop, hop2, if_pos rfl] at hev
          exact hevs1 ev hev
        · simp only [execLoop, hop2, if_neg hfz, Outcome.failMsg] at hev
          exact ih (attempt + 1) (some e) cache (t + d * attempt) _ hevs2 ev hev

/-- C5, counterexample to the claim as stated: `falsyCache` holds a valid
(fresh) entry for `"k"`, but because its value `0` is falsy the `if
(cached)` test fails, so `execute` invokes the operation (attempt 1 is
invoked) and the result is not tagged `fromCache: true`. -/
theorem claim_C5_counterexample :
    mapLookup falsyCache "k" = some ⟨.num 0, 0, 300000⟩ ∧
    (execute (fun _ => .ret (.num 7) none) (some "k") true 300000 3 1000 50
      falsyCache 0).result.fromCache = false ∧
    ExecEvent.invoke 1 ∈ (execute (fun _ => .ret (.num 7) none) (some "k") true
      300000 3 1000 50 falsyCache 0).events := by
  decide

/-- C5, amended: when the cache holds a valid entry *with a truthy value*
for the key, `execute` resolves `{data: cached, error: null, fromCache:
true}` with no event at all — the operation is never invoked; and the
spec's scenario holds: a fetch that throws twice then returns `{data: 42}`
under `retries: 3` yields `{data: 42, fromCache: false (absent)}`, the
value is stored in the cache, and a subsequent `execute` on the same key
with `useCache: true` returns `{data: 42, fromCache: true}` without
invoking its fetch (its event list is empty). -/
theorem execute_read_through (op : Nat → Outcome) (k : String)
    (ttl retries d maxSize : Nat) (cache : MemCache) (now : Nat) (e : MemEntry)
    (hl : mapLookup cache k = some e) (hv : now - e.timestamp ≤ e.ttl)
    (ht : truthy e.value = true) :
    execute op (some k) true ttl retries d maxSize cache now =
      ⟨⟨e.value, none, true⟩, cache, now, []⟩ ∧
    scenarioOut.result = ⟨.num 42, none, false⟩ ∧
    mapLookup scenarioOut.cache "k" = some ⟨.num 42, 3000, 300000⟩ ∧
    ExecEvent.cacheSet "k" ∈ scenarioOut.events ∧
    execute (fun _ => .throwErr "later") (some "k") true 300000 3 1000 50
      scenarioOut.cache 3000 =
      ⟨⟨.num 42, none, true⟩, scenarioOut.cache, 3000, []⟩ :=
  ⟨execute_cache_hit op k ttl retries d maxSize cache now e hl hv ht,
   by decide, by decide, by decide, by decide⟩

/-- C5 witness: the amended claim at a concrete truthy cached entry. -/
theorem execute_read_through_witness :
    execute (fun _ => .throwErr "x") (some "k") true 300000 3 1000 50
      boundaryCache 3 =
      ⟨⟨.num 7, none, true⟩, boundaryCache, 3, []⟩ :=
  (execute_read_through (fun _ => .throwErr "x") "k" 300000 3 1000 50
    boundaryCache 3 ⟨.num 7, 0, 5⟩ (by decide) (by decide) (by decide)).1

/-- C10: falsy values and the read-through path.  (i) A valid cache entry
whose value is falsy is treated as a miss: the operation is invoked
anyway.  (ii) If every successful return of the operation carries falsy
`data`, no `execute` call ever stores into the cache (no `cacheSet` event
occurs), for any cache key and `useCache` flag. -/
theorem execute_falsy_values (op : Nat → Outcome) (k : String)
    (ck : Option String) (uc : Bool) (ttl retries d maxSize : Nat)
    (cache : MemCache) (now : Nat) (e : MemEntry) :
    (mapLookup cache k = some e → now - e.timestamp ≤ e.ttl →
      truthy e.value = false → 1 ≤ retries →
      ExecEvent.invoke 1 ∈
        (execute op (some k) true ttl retries d maxSize cache now).events) ∧
    ((∀ i dta, op i = .ret dta none → truthy dta = false) →
      ∀ ev ∈ (execute op ck uc ttl retries d maxSize cache now).events,
        ev.isCacheSet = false) := by
  constructor
  · intro hl hv ht hr
    have hg : getMemory now cache k = (some e.value, cache) := by
      simp only [getMemory, hl]
      rw [if_neg (by omega)]
    show ExecEvent.invoke 1 ∈
      (match (motive := Option String → Bool → ExecOut) some k, true with
        | some k, true =>
          let hit := getMemory now cache k
          match hit.1 with
          | some v =>
            if truthy v then ⟨⟨v, none, true⟩, hit.2, now, []⟩
            else execLoop op true (some k) ttl d maxSize retries 1 none hit.2
              now []
          | none => execLoop op true (some k) ttl d maxSize retries 1 none hit.2
              now []
        | _, _ => execLoop op uc ck ttl d maxSize retries 1 none cache now
          []).events
    simp only [hg, ht, if_false]
    exact execLoop_invokes op true (some k) ttl d maxSize retries 1 none
      cache now [] hr
  · intro hop ev hev
    have hnil : ∀ ev1 ∈ ([] : List ExecEvent), ev1.isCacheSet = false := by
      intro ev1 h1; cases h1
    rcases ck with _ | k2
    · exact execLoop_no_cacheSet op uc none ttl d maxSize hop retries 1 none
        cache now [] hnil ev hev
    · rcases uc with _ | _
      · exact execLoop_no_cacheSet op false (some k2) ttl d maxSize hop retries
          1 none cache now [] hnil ev hev
      · rcases hg : (getMemory now cache k2).1 with _ | v
        · simp only [execute, hg] at hev
          exact execLoop_no_cacheSet op true (some k2) ttl d maxSize hop retries
            1 none (getMemory now cache k2).2 now [] hnil ev hev
        · by_cases htv : truthy v = true
          · simp only [execute, hg, htv, if_true] at hev
            cases hev
          · have htv2 : truthy v = false := by
              revert htv; cases truthy v <;> simp
            simp only [execute, hg, htv2, if_false] at hev
            exact execLoop_no_cacheSet op true (some k2) ttl d maxSize hop
              retries 1 none (getMemory now cache k2).2 now [] hnil ev hev

/-- C10 witness: concrete falsy cached value `0` and an operation always
returning falsy data: the operation is invoked and nothing is stored. -/
theorem execute_falsy_values_witness :
    ExecEvent.invoke 1 ∈ (execute (fun _ => .ret (.num 0) none) (some "k") true
      300000 3 1000 50 falsyCache 0).events ∧
    (ExecEvent.invoke 1).isCacheSet = false :=
  ⟨(execute_falsy_values (fun _ => .ret (.num 0) none) "k" (some "k") true
      300000 3 1000 50 falsyCache 0 ⟨.num 0, 0, 300000⟩).1
      (by decide) (by decide) (by decide) (by decide),
   (execute_falsy_values (fun _ => .ret (.num 0) none) "k" (some "k") true
      300000 3 1000 50 falsyCache 0 ⟨.num 0, 0, 300000⟩).2
      (by intro i dta h; injection h with h1 h2; rw [← h1]; decide)
      (ExecEvent.invoke 1) (by decide)⟩

/-- C1, counterexample to the claim as stated: `getState("cart")` returns
the internal slot value itself — the array at address 2 — which also
occurs inside the state document, so the caller holds a live reference
into internal state (mutating through it mutates the store). -/
theorem claim_C1_counterexample :
    (getState demoState (some "cart") 10).1 = .arr 2 .nil ∧
    2 ∈ addrs (getState demoState (some "cart") 10).1 ∧
    2 ∈ addrs demoState := by
  decide

/-- C1, amended: `getState()` with no key returns a deep clone — its
addresses are disjoint from the document's (no mutation path) and it is
deep-equal to the document — while `getState(key)` with a non-empty key
returns the slot's value by reference, without cloning. -/
theorem getState_clone_semantics (state : JSVal) (k : String) (ctr : Nat)
    (hctr : ∀ a ∈ addrs state, a < ctr) (hk : k ≠ "") :
    (∀ a ∈ addrs (getState state none ctr).1, a ∉ addrs state) ∧
    stripAddrs (getState state none ctr).1 = stripAddrs state ∧
    (getState state (some k) ctr).1 = getField state k := by
  refine ⟨?_, stripAddrs_deepClone state ctr, by simp [getState, hk]⟩
  intro a ha hmem
  have h1 := deepClone_addrs_fresh state ctr a ha
  have h2 := hctr a hmem
  omega

/-- C1 witness: the amended claim at the concrete demo document; address
10 occurs in the clone but not in the document. -/
theorem getState_clone_semantics_witness :
    (10 ∉ addrs demoState) ∧
    stripAddrs (getState demoState none 10).1 = stripAddrs demoState ∧
    (getState demoState (some "products") 10).1 =
      getField demoState "products" :=
  ⟨(getState_clone_semantics demoState "products" 10 (by decide)
      (by decide)).1 10 (by decide),
   (getState_clone_semantics demoState "products" 10 (by decide)
      (by decide)).2.1,
   (getState_clone_semantics demoState "products" 10 (by decide)
      (by decide)).2.2⟩

theorem saveToHistory_mem (hist : List HistEntry) (maxSize : Nat)
    (oldState newState : JSVal) (source : String) (now ctr : Nat) :
    ∀ e ∈ (saveToHistory hist maxSize oldState newState source now ctr).1,
      e ∈ hist ∨ (stripAddrs e.oldState = stripAddrs oldState ∧
        stripAddrs e.newState = stripAddrs newState) := by
  intro e he
  simp only [saveToHistory] at he
  have he2 : e ∈ hist ++ [(⟨now, (deepClone oldState ctr).1,
      (deepClone newState (deepClone oldState ctr).2).1, source⟩ :
      HistEntry)] := by
    split at he
    · exact List.drop_subset _ _ he
    · exact he
  rcases List.mem_append.mp he2 with h | h
  · exact Or.inl h
  · right
    simp only [List.mem_singleton] at h
    subst h
    exact ⟨stripAddrs_deepClone _ _, stripAddrs_deepClone _ _⟩

/-- C9: writing a slot's own current value back through `setState` is a
no-op on the observable state: the strict comparison `this.state[key] !==
value` sees no change, so no notification fires for the key, the state
document is returned unchanged, and the (unconditionally appended)
history entry records deep-equal old and new snapshots — nothing
distinguishable by a changed value for the key. -/
theorem setState_noop (svc : StateSvc) (x source : String) (now ctr : Nat) :
    (setState svc [(x, getField svc.state x)] source now ctr).2.2 = [] ∧
    (setState svc [(x, getField svc.state x)] source now ctr).1.state =
      svc.state ∧
    ∀ e ∈ (setState svc [(x, getField svc.state x)] source now ctr).1.history,
      e ∈ svc.history ∨ stripAddrs e.oldState = stripAddrs e.newState := by
  have happ : applyUpdates svc.state [(x, getField svc.state x)] =
      (svc.state, []) := by
    simp [applyUpdates, jsStrictEq_refl]
  refine ⟨by simp [setState, happ], by simp [setState, happ], ?_⟩
  intro e he
  have he' : e ∈ (saveToHistory svc.history svc.maxHistorySize
      (deepClone svc.state ctr).1 svc.state source now
      (deepClone svc.state ctr).2).1 := by
    simpa [setState, happ] using he
  rcases saveToHistory_mem _ _ _ _ _ _ _ e he' with h | ⟨h1, h2⟩
  · exact Or.inl h
  · right
    rw [h1, h2, stripAddrs_deepClone]

/-- C9 witness: the no-op write on the concrete demo store, with the
history-entry conclusion evaluated at the appended entry. -/
theorem setState_noop_witness :
    (setState demoSvc [("cart", getField demoSvc.state "cart")] "w" 7
      100).2.2 = [] ∧
    (setState demoSvc [("cart", getField demoSvc.state "cart")] "w" 7
      100).1.state = demoSvc.state ∧
    ((setState demoSvc [("cart", getField demoSvc.state "cart")] "w" 7
        100).1.history.getD 2 dummyEntry ∈ demoSvc.history ∨
      stripAddrs ((setState demoSvc [("cart", getField demoSvc.state "cart")]
        "w" 7 100).1.history.getD 2 dummyEntry).oldState =
      stripAddrs ((setState demoSvc [("cart", getField demoSvc.state "cart")]
        "w" 7 100).1.history.getD 2 dummyEntry).newState) :=
  ⟨(setState_noop demoSvc "cart" "w" 7 100).1,
   (setState_noop demoSvc "cart" "w" 7 100).2.1,
   (setState_noop demoSvc "cart" "w" 7 100).2.2 _ (by decide)⟩

/-- C8: `undo()` returns `false` and changes nothing when the history has
fewer than two entries; with at least two it restores the state document
to a deep-equal copy of the second-to-last entry's `newState` (the
immediately preceding snapshot), pops the last entry, and issues one
`notify(key, restored[key], previous.oldState[key])` per top-level key of
the restored document, in key order. -/
theorem undo_spec (svc : StateSvc) (ctr : Nat) :
    (svc.history.length < 2 → undo svc ctr = (false, svc, ctr, [])) ∧
    (2 ≤ svc.history.length →
      (undo svc ctr).1 = true ∧
      stripAddrs (undo svc ctr).2.1.state =
        stripAddrs (svc.history.getD (svc.history.length - 2)
          dummyEntry).newState ∧
      (undo svc ctr).2.1.history = svc.history.dropLast ∧
      (undo svc ctr).2.2.2 = (topKeys (undo svc ctr).2.1.state).map
        (fun key => Notif.mk key (getField (undo svc ctr).2.1.state key)
          (getField (svc.history.getD (svc.history.length - 2)
            dummyEntry).oldState key))) := by
  constructor
  · intro h
    simp [undo, h]
  · intro h
    have hneg : ¬ svc.history.length < 2 := by omega
    refine ⟨by simp [undo, hneg], ?_, by simp [undo, hneg], ?_⟩
    · simp only [undo, if_neg hneg]
      exact stripAddrs_deepClone _ _
    · simp [undo, hneg]

/-- C8 witness: `undo` on the concrete two-entry store restores the first
entry's `newState` and pops the second. -/
theorem undo_spec_witness :
    (undo demoSvc 100).1 = true ∧
    stripAddrs (undo demoSvc 100).2.1.state =
      stripAddrs (demoSvc.history.getD (demoSvc.history.length - 2)
        dummyEntry).newState ∧
    (undo demoSvc 100).2.1.history = demoSvc.history.dropLast :=
  ⟨((undo_spec demoSvc 100).2 (by decide)).1,
   ((undo_spec demoSvc 100).2 (by decide)).2.1,
   ((undo_spec demoSvc 100).2 (by decide)).2.2.1⟩

theorem queueInvariant_init : queueInvariant QState.init := ⟨rfl, rfl⟩

theorem qstep_preserves {s s' : QState} (h : QStep s s')
    (hinv : queueInvariant s) : queueInvariant s' := by
  obtain ⟨h1, h2⟩ := hinv
  cases h with
  | submit i =>
    refine ⟨?_, h2⟩
    rw [← h1]
    simp
  | start i t hp hi hq =>
    refine ⟨?_, h2⟩
    rw [← h1, hi, hq]
    simp
  | finish i hi =>
    constructor
    · rw [← h1, hi]
      simp
    · rw [h2, List.flatMap_append]
      rfl
  | stop hp hi hq =>
    exact ⟨h1, h2⟩

theorem qreachable_invariant (s : QState) (h : QReachable s) :
    queueInvariant s := by
  induction h with
  | refl => exact queueInvariant_init
  | tail hsteps hstep ih => exact qstep_preserves hstep ih

/-- C7: write-queue ordering.  In every state reachable by any
interleaving of submissions, drain steps and settlements: the submission
order decomposes as settled requests, then the (at most one) in-flight
request, then the pending queue — so requests settle exactly in FIFO
submission order, whatever each request's latency (i.e. whenever its
`finish` step fires); and the event trace is precisely one settlement
followed by one 100 ms inter-operation delay per settled request, so a
delay elapses between consecutive settlements. -/
theorem writeQueue_fifo (s : QState) (h : QReachable s) :
    s.settled ++ s.inflight.toList ++ s.queue = s.submitted ∧
    (∃ rest, s.settled ++ rest = s.submitted) ∧
    s.inflight.toList.length ≤ 1 ∧
    s.trace = s.settled.flatMap
      (fun i => [QEvent.settle i, QEvent.delayEv 100]) := by
  have hinv := qreachable_invariant s h
  refine ⟨hinv.1, ⟨s.inflight.toList ++ s.queue, ?_⟩, ?_, hinv.2⟩
  · rw [← List.append_assoc]
    exact hinv.1
  · cases s.inflight <;> simp

/-- C7 witness: after submitting requests 1 then 2, starting and settling
request 1, the reachable state satisfies the FIFO decomposition and the
trace shape. -/
theorem writeQueue_fifo_witness :
    ([1] : List Nat) ++ (none : Option Nat).toList ++ [2] = [1, 2] ∧
    ((none : Option Nat).toList.length ≤ 1) ∧
    ([QEvent.settle 1, QEvent.delayEv 100] =
      ([1] : List Nat).flatMap
        (fun i => [QEvent.settle i, QEvent.delayEv 100])) := by
  have hreach : QReachable ⟨[2], none, true, [1], [1, 2],
      [.settle 1, .delayEv 100]⟩ := by
    have s1 : QStep QState.init ⟨[1], none, true, [], [1], []⟩ :=
      QStep.submit QState.init 1
    have s2 : QStep ⟨[1], none, true, [], [1], []⟩
        ⟨[1, 2], none, true, [], [1, 2], []⟩ :=
      QStep.submit ⟨[1], none, true, [], [1], []⟩ 2
    have s3 : QStep ⟨[1, 2], none, true, [], [1, 2], []⟩
        ⟨[2], some 1, true, [], [1, 2], []⟩ :=
      QStep.start ⟨[1, 2], none, true, [], [1, 2], []⟩ 1 [2] rfl rfl rfl
    have s4 : QStep ⟨[2], some 1, true, [], [1, 2], []⟩
        ⟨[2], none, true, [1], [1, 2], [.settle 1, .delayEv 100]⟩ :=
      QStep.finish ⟨[2], some 1, true, [], [1, 2], []⟩ 1 rfl
    exact Relation.ReflTransGen.tail (Relation.ReflTransGen.tail
      (Relation.ReflTransGen.tail (Relation.ReflTransGen.single s1) s2) s3) s4
  have h := writeQueue_fifo ⟨[2], none, true, [1], [1, 2],
    [.settle 1, .delayEv 100]⟩ hreach
  exact ⟨h.1, h.2.2.1, h.2.2.2⟩

end Ecom
